import Mathlib

/-!
Verification of the stock-forecast core: shallow embedding of the
preprocessing layer (`timeSplit`, `fitMinMaxScaler` from src/data/features.js),
the CART regression-tree builder (`buildTree` from src/models/…), the seeded
Monte-Carlo GBM simulator (`forecastGBM`, `mulberry32`), and the ensemble
blender (`ensembleForecasts` from src/models/ensemble.js).

Numbers are modelled as exact rationals (`ℚ`); JavaScript's transcendental
primitives (`Math.log`, `Math.cos`, `Math.sqrt`, `Math.exp`) are abstracted as
an explicit record of rational-valued operations (`JsOps`), so every function
below is a computable, deterministic function of its arguments, exactly
mirroring the source's data flow.  The 32-bit integer mixing of the Mulberry32
generator is modelled exactly over `ℕ` with reduction mod 2^32 where the
JavaScript coerces values to 32-bit words.
-/

/-- Abstract interpretations of the JavaScript numeric primitives used by the
GBM simulator.  `cosTwoPi u` stands for `Math.cos(2 * Math.PI * u)`. -/
structure JsOps where
  log : ℚ → ℚ
  sqrt : ℚ → ℚ
  cosTwoPi : ℚ → ℚ
  exp : ℚ → ℚ

/-- GBM parameters, as produced by `fitGBM` (src/models/…: `{ mu, sigma, lastPrice }`). -/
structure GBMParams where
  mu : ℚ
  sigma : ℚ
  lastPrice : ℚ

/-- Result of `forecastGBM`: `{ median, lower5, upper95 }`. -/
structure GBMForecast where
  median : List ℚ
  lower5 : List ℚ
  upper95 : List ℚ

/-- The 32-bit mixing function of Mulberry32, applied to the (already
incremented) generator state `s`.  Each `% 4294967296` marks a place where the
JavaScript bitwise operators coerce the value to a 32-bit word:
`t = Math.imul(t ^ (t >>> 15), t | 1); t ^= t + Math.imul(t ^ (t >>> 7), t | 61);
return ((t ^ (t >>> 14)) >>> 0)`. -/
def m32 (s : ℕ) : ℕ :=
  let t0 := s % 4294967296
  let t1 := ((t0 ^^^ (t0 >>> 15)) * (t0 ||| 1)) % 4294967296
  let t2 := t1 ^^^ ((t1 + (((t1 ^^^ (t1 >>> 7)) * (t1 ||| 61)) % 4294967296)) % 4294967296)
  t2 ^^^ (t2 >>> 14)

/-- One call of the closure returned by `mulberry32(seed)`: the state is first
incremented by 0x6d2b79f5, then mixed; the uniform output is the final 32-bit
word divided by 2^32. -/
def mulberry32Step (s : ℕ) : ℕ × ℚ :=
  (s + 0x6d2b79f5, (m32 (s + 0x6d2b79f5) : ℚ) / 4294967296)

/-- `normalRandom(rng)`: Box–Muller transform,
`Math.sqrt(-2 * Math.log(u1 + 1e-10)) * Math.cos(2 * Math.PI * u2)`,
consuming two uniforms from the generator state. -/
def normalRandom (ops : JsOps) (s : ℕ) : ℕ × ℚ :=
  let p1 := mulberry32Step s
  let p2 := mulberry32Step p1.1
  (p2.1, ops.sqrt ((-2) * ops.log (p1.2 + 1 / 10000000000)) * ops.cosTwoPi p2.2)

/-- Draw `k` successive standard normals, threading the generator state. -/
def drawNormals (ops : JsOps) (s : ℕ) : ℕ → ℕ × List ℚ
  | 0 => (s, [])
  | k + 1 =>
    let p := normalRandom ops s
    let rest := drawNormals ops p.1 k
    (rest.1, p.2 :: rest.2)

/-- Cumulative sums with running accumulator (the Brownian path `W`). -/
def cumsumFrom (acc : ℚ) : List ℚ → List ℚ
  | [] => []
  | x :: xs => (acc + x) :: cumsumFrom (acc + x) xs

/-- `W[0] = b[0]; W[t] = W[t-1] + b[t]`. -/
def cumsum (l : List ℚ) : List ℚ := cumsumFrom 0 l

/-- One simulated GBM path of `forecastGBM`: `H` Brownian increments
`normalRandom(rng) * Math.sqrt(dt)` with `dt = 1/H`, their cumulative sum `W`,
and `path[t] = lastPrice * exp((mu - 0.5*sigma^2) * (t/H) + sigma * W[t-1])`
for `t = 1..H`, with `path[0] = lastPrice`. -/
def genPath (ops : JsOps) (prm : GBMParams) (H : ℕ) (s : ℕ) : ℕ × List ℚ :=
  let draws := drawNormals ops s H
  let b := draws.2.map (fun z => z * ops.sqrt (1 / (H : ℚ)))
  let W := cumsum b
  (draws.1,
    prm.lastPrice ::
      (List.range H).map (fun i =>
        prm.lastPrice *
          ops.exp ((prm.mu - (1 / 2) * prm.sigma * prm.sigma) * (((i + 1 : ℕ) : ℚ) / (H : ℚ)) +
            prm.sigma * W.getD i 0)))

/-- Simulate `n` paths sequentially, threading the generator state. -/
def genPaths (ops : JsOps) (prm : GBMParams) (H : ℕ) (s : ℕ) : ℕ → ℕ × List (List ℚ)
  | 0 => (s, [])
  | n + 1 =>
    let p := genPath ops prm H s
    let rest := genPaths ops prm H p.1 n
    (rest.1, p.2 :: rest.2)

/-- Percentile index `Math.floor(nPaths * q)`. -/
def pctIdx (N : ℕ) (q : ℚ) : ℕ := (⌊(N : ℚ) * q⌋).toNat

/-- The sorted column of path values at day `t` (`paths.map(p => p[t]).sort((a,b) => a-b)`). -/
def gbmColumn (paths : List (List ℚ)) (t : ℕ) : List ℚ :=
  List.insertionSort (· ≤ ·) (paths.map (fun p => p.getD t 0))

/-- `forecastGBM({mu, sigma, lastPrice}, horizon, nPaths, seed)`: simulate
`nPaths` seeded paths and report, for each day `t = 1..horizon`, the sorted
column indexed at `floor(nPaths*0.5)`, `floor(nPaths*0.05)`, `floor(nPaths*0.95)`. -/
def forecastGBM (ops : JsOps) (prm : GBMParams) (horizon nPaths seed : ℕ) : GBMForecast :=
  let paths := (genPaths ops prm horizon seed nPaths).2
  { median := (List.range horizon).map (fun i => (gbmColumn paths (i + 1)).getD (pctIdx nPaths (1 / 2)) 0)
    lower5 := (List.range horizon).map (fun i => (gbmColumn paths (i + 1)).getD (pctIdx nPaths (1 / 20)) 0)
    upper95 := (List.range horizon).map (fun i => (gbmColumn paths (i + 1)).getD (pctIdx nPaths (19 / 20)) 0) }

/-- Scaler record produced by `fitMinMaxScaler` (`{ min, max, range }`). -/
structure Scaler where
  min : ℚ
  max : ℚ
  range : ℚ

/-- One step of `fitMinMaxScaler`'s minimum loop
(`if (v < min) min = v`), with `none` playing `Infinity`. -/
def minStep (acc : Option ℚ) (v : ℚ) : Option ℚ :=
  match acc with
  | none => some v
  | some m => if v < m then some v else some m

/-- One step of the maximum loop (`if (v > max) max = v`), `none` playing
`-Infinity`. -/
def maxStep (acc : Option ℚ) (v : ℚ) : Option ℚ :=
  match acc with
  | none => some v
  | some m => if m < v then some v else some m

/-- The running minimum over the data (`for v of data: if (v < min) min = v`). -/
def jsFoldMin (data : List ℚ) : Option ℚ := data.foldl minStep none

/-- The running maximum over the data. -/
def jsFoldMax (data : List ℚ) : Option ℚ := data.foldl maxStep none

/-- `fitMinMaxScaler(data)`: min/max over the data; `range = max - min || 1`
(the JavaScript `|| 1` replaces a zero range by 1). -/
def fitMinMaxScaler (data : List ℚ) : Scaler :=
  let mn := (jsFoldMin data).getD 0
  let mx := (jsFoldMax data).getD 0
  { min := mn, max := mx, range := if mx - mn = 0 then 1 else mx - mn }

/-- The scaler's `transform(arr)`: `arr.map(v => (v - min) / range)`. -/
def scalerTransform (s : Scaler) (arr : List ℚ) : List ℚ :=
  arr.map (fun v => (v - s.min) / s.range)

/-- The scaler's `inverse(arr)`: `arr.map(v => v * range + min)`. -/
def scalerInverse (s : Scaler) (arr : List ℚ) : List ℚ :=
  arr.map (fun v => v * s.range + s.min)

/-- JavaScript `Array.prototype.slice(start, end)` with its negative-index and
clamping semantics. -/
def jsSlice (arr : List ℚ) (s e : Int) : List ℚ :=
  let n : Int := arr.length
  let s' := if s < 0 then max (n + s) 0 else min s n
  let e' := if e < 0 then max (n + e) 0 else min e n
  (arr.take e'.toNat).drop s'.toNat

/-- The three segments returned by `timeSplit`. -/
structure SplitResult where
  train : List ℚ
  val : List ℚ
  test : List ℚ
deriving DecidableEq

/-- `timeSplit(arr, trainFrac, valFrac)`: cut at `Math.floor(n*trainFrac)` and
`Math.floor(n*(trainFrac+valFrac))`; `test` is the remainder (`arr.slice(valEnd)`
is `slice(valEnd, n)`). -/
def timeSplit (arr : List ℚ) (trainFrac valFrac : ℚ) : SplitResult :=
  let n := arr.length
  let trainEnd : Int := ⌊(n : ℚ) * trainFrac⌋
  let valEnd : Int := ⌊(n : ℚ) * (trainFrac + valFrac)⌋
  { train := jsSlice arr 0 trainEnd
    val := jsSlice arr trainEnd valEnd
    test := jsSlice arr valEnd n }

/-- Modelled from the spec and src/App.jsx `handleRun`: the caller's data-size
guard.  `App.jsx` throws `Not enough data` when
`stock.prices.length < params.lookback + FORECAST_HORIZON + 50` with
`FORECAST_HORIZON = 30`, before any split is computed.  Returns `true` exactly
when the guard throws. -/
def appDataCheckFails (nPrices lookback : ℕ) : Bool :=
  decide (nPrices < lookback + 30 + 50)

/-- A CART tree node.  The source's `TreeNode` always stores `value` (the mean
of the node's targets); a leaf is a node with `left === null`. -/
inductive TreeNode
  | leaf (value : ℚ)
  | node (featureIdx : ℕ) (threshold : ℚ) (value : ℚ) (left right : TreeNode)
deriving DecidableEq

/-- `y.reduce((a,b) => a+b, 0) / y.length`: the mean target, used as every
node's `value`. -/
def meanQ (l : List ℚ) : ℚ := l.sum / (l.length : ℚ)

/-- `mse(targets)` from the source: 0 on the empty list, otherwise the mean
squared deviation from the mean. -/
def mseQ (l : List ℚ) : ℚ :=
  if l.length = 0 then 0
  else ((l.map (fun b => (b - meanQ l) ^ 2)).sum) / (l.length : ℚ)

/-- One split candidate: feature index, threshold, and the partition of the
row indices it induces. -/
structure Cand where
  featureIdx : ℕ
  threshold : ℚ
  leftIdx : List ℕ
  rightIdx : List ℕ
deriving DecidableEq

/-- `[...new Set(vals)].sort((a,b) => a-b)`: the distinct feature values of
column `fi`, in ascending order. -/
def sortedUniques (X : List (List ℚ)) (fi : ℕ) : List ℚ :=
  List.insertionSort (· ≤ ·) (X.map (fun row => row.getD fi 0)).dedup

/-- The threshold candidates of feature `fi`: midpoints of consecutive sorted
unique values (`(sorted[t] + sorted[t+1]) / 2` for `t = 0 .. sorted.length-2`). -/
def midpoints (X : List (List ℚ)) (fi : ℕ) : List ℚ :=
  (List.range ((sortedUniques X fi).length - 1)).map
    (fun t => ((sortedUniques X fi).getD t 0 + (sortedUniques X fi).getD (t + 1) 0) / 2)

/-- Partition the row indices at threshold `th` of feature `fi`
(`X[i][fi] <= thresh` goes left, the rest go right). -/
def mkCand (X : List (List ℚ)) (fi : ℕ) (th : ℚ) : Cand :=
  { featureIdx := fi
    threshold := th
    leftIdx := (List.range X.length).filter (fun i => decide ((X.getD i []).getD fi 0 ≤ th))
    rightIdx := (List.range X.length).filter (fun i => !decide ((X.getD i []).getD fi 0 ≤ th)) }

/-- All split candidates, enumerated in the source's iteration order: features
`0 .. X[0].length-1` in order, and for each feature its thresholds in order. -/
def allCands (X : List (List ℚ)) : List Cand :=
  (List.range (X.headD []).length).flatMap (fun fi => (midpoints X fi).map (mkCand X fi))

/-- A candidate survives the `minSamplesLeaf` check
(`leftIdx.length < minLeaf || rightIdx.length < minLeaf` skips it). -/
def validCand (minLeaf : ℕ) (c : Cand) : Bool :=
  !(decide (c.leftIdx.length < minLeaf) || decide (c.rightIdx.length < minLeaf))

/-- The candidates actually compared by the search. -/
def validCands (X : List (List ℚ)) (minLeaf : ℕ) : List Cand :=
  (allCands X).filter (validCand minLeaf)

/-- The size-weighted MSE of a candidate's two children:
`(leftY.length * mse(leftY) + rightY.length * mse(rightY)) / y.length`. -/
def wMSE (y : List ℚ) (c : Cand) : ℚ :=
  let leftY := c.leftIdx.map (fun i => y.getD i 0)
  let rightY := c.rightIdx.map (fun i => y.getD i 0)
  ((leftY.length : ℚ) * mseQ leftY + (rightY.length : ℚ) * mseQ rightY) / (y.length : ℚ)

/-- `gain = parentMSE - weightedMSE`. -/
def gainQ (y : List ℚ) (c : Cand) : ℚ := mseQ y - wMSE y c

/-- The source's selection loop: scan candidates in order, skip invalid ones,
and replace the incumbent only on strictly greater gain (`if (gain > bestGain)`,
with `bestGain` starting at `-Infinity`, here `none`). -/
def selectCand (y : List ℚ) (minLeaf : ℕ) : Option Cand → List Cand → Option Cand
  | best, [] => best
  | best, c :: cs =>
    if validCand minLeaf c then
      match best with
      | none => selectCand y minLeaf (some c) cs
      | some b =>
        if gainQ y b < gainQ y c then selectCand y minLeaf (some c) cs
        else selectCand y minLeaf (some b) cs
    else selectCand y minLeaf best cs

/-- The split chosen at a node (`none` plays `bestFeat === -1`). -/
def bestSplit (X : List (List ℚ)) (y : List ℚ) (minLeaf : ℕ) : Option Cand :=
  selectCand y minLeaf none (allCands X)

/-- `selectCand` restricted to an already-filtered (all-valid) candidate list;
helper for analysing the selection order. -/
def selAux (y : List ℚ) : Option Cand → List Cand → Option Cand
  | best, [] => best
  | none, c :: cs => selAux y (some c) cs
  | some b, c :: cs =>
    if gainQ y b < gainQ y c then selAux y (some c) cs else selAux y (some b) cs

/-- `maxDepth !== null && depth >= maxDepth`. -/
def depthDone (depth : ℕ) (maxDepth : Option ℕ) : Bool :=
  match maxDepth with
  | none => false
  | some md => decide (md ≤ depth)

/-- The four leaf conditions checked at the top of `buildTree`:
`y.length < minSplit || y.length < 2*minLeaf || depth >= maxDepth || mse(y) < 1e-12`. -/
def stopCond (y : List ℚ) (depth : ℕ) (maxDepth : Option ℕ) (minSplit minLeaf : ℕ) : Bool :=
  decide (y.length < minSplit) || decide (y.length < 2 * minLeaf) ||
    depthDone depth maxDepth || decide (mseQ y < 1 / 1000000000000)

/-- `buildTree(X, y, depth, maxDepth, minSplit, minLeaf, maxFeatures=null)`,
with explicit fuel for the recursion; each recursive call strictly shrinks the
sample, so fuel `X.length + 1` at the root is never exhausted.  The
`maxFeatures = "sqrt"/"log2"` branches sample features through the unseeded
`Math.random` and are outside this deterministic embedding; this is the
`maxFeatures = null` behaviour (all features considered), the branch exercised
by the claims. -/
def buildTreeAux : ℕ → List (List ℚ) → List ℚ → ℕ → Option ℕ → ℕ → ℕ → TreeNode
  | 0, _, y, _, _, _, _ => TreeNode.leaf (meanQ y)
  | fuel + 1, X, y, depth, maxDepth, minSplit, minLeaf =>
    if stopCond y depth maxDepth minSplit minLeaf then TreeNode.leaf (meanQ y)
    else
      match bestSplit X y minLeaf with
      | none => TreeNode.leaf (meanQ y)
      | some c =>
        TreeNode.node c.featureIdx c.threshold (meanQ y)
          (buildTreeAux fuel (c.leftIdx.map (fun i => X.getD i [])) (c.leftIdx.map (fun i => y.getD i 0))
            (depth + 1) maxDepth minSplit minLeaf)
          (buildTreeAux fuel (c.rightIdx.map (fun i => X.getD i [])) (c.rightIdx.map (fun i => y.getD i 0))
            (depth + 1) maxDepth minSplit minLeaf)

/-- Top-level `buildTree` call. -/
def buildTree (X : List (List ℚ)) (y : List ℚ) (depth : ℕ) (maxDepth : Option ℕ)
    (minSplit minLeaf : ℕ) : TreeNode :=
  buildTreeAux (X.length + 1) X y depth maxDepth minSplit minLeaf

/-- `b` is the first candidate of `cs` attaining the minimum weighted MSE:
every earlier candidate is strictly worse, every later one no better.  This is
the spec's tie-breaking rule ("first-encountered in iteration order"). -/
def IsFirstMin (y : List ℚ) (cs : List Cand) (b : Cand) : Prop :=
  ∃ pre post, cs = pre ++ b :: post ∧
    (∀ c ∈ pre, wMSE y b < wMSE y c) ∧ (∀ c ∈ post, wMSE y b ≤ wMSE y c)

/-- An abstract model of `Math.sqrt` for the ensemble's model-disagreement
standard deviation: a rational-valued square root together with the one fact
used by the bands (the square root of a non-negative number is non-negative). -/
structure SqrtOps where
  sqrt : ℚ → ℚ
  sqrt_nonneg : ∀ x : ℚ, 0 ≤ x → 0 ≤ sqrt x

/-- A `{ lower5, upper95 }` confidence band (the `bands.gbm` argument). -/
structure Band where
  lower5 : List ℚ
  upper95 : List ℚ

/-- Result of `ensembleForecasts`: `{ point, lower5, upper95 }`. -/
structure EnsembleResult where
  point : List ℚ
  lower5 : List ℚ
  upper95 : List ℚ

/-- The ensemble point forecast: `point[t] += w * forecasts[m][t]` over all
models, `w = 1 / models.length`, for `t` below the first model's horizon. -/
def ensPoint (fs : List (List ℚ)) : List ℚ :=
  (List.range (fs.headD []).length).map
    (fun t => fs.foldl (fun acc f => acc + (1 / (fs.length : ℚ)) * f.getD t 0) 0)

/-- The cross-model disagreement: per step, the standard deviation of the raw
point forecasts (`Math.sqrt` of the mean squared deviation). -/
def ensStd (S : SqrtOps) (fs : List (List ℚ)) : List ℚ :=
  (List.range (fs.headD []).length).map
    (fun t =>
      let vals := fs.map (fun f => f.getD t 0)
      S.sqrt (((vals.map (fun v => (v - vals.sum / (vals.length : ℚ)) ^ 2)).sum) / (vals.length : ℚ)))

/-- The base band: the supplied GBM band when present, else
`point*0.95` / `point*1.05`. -/
def ensBase (fs : List (List ℚ)) (bands : Option Band) : List ℚ × List ℚ :=
  match bands with
  | some b => (b.lower5, b.upper95)
  | none => ((ensPoint fs).map (fun p => p * (19 / 20)), (ensPoint fs).map (fun p => p * (21 / 20)))

/-- The re-centred, disagreement-widened lower band:
`lower5[t] = point[t] - halfSpread - modelStd[t]` with
`halfSpread = (upper95[t] - lower5[t]) / 2` of the base band. -/
def ensLower (S : SqrtOps) (fs : List (List ℚ)) (bands : Option Band) : List ℚ :=
  (List.range (fs.headD []).length).map
    (fun t =>
      (ensPoint fs).getD t 0 -
        ((ensBase fs bands).2.getD t 0 - (ensBase fs bands).1.getD t 0) / 2 -
        (ensStd S fs).getD t 0)

/-- The re-centred, disagreement-widened upper band:
`upper95[t] = point[t] + halfSpread + modelStd[t]`. -/
def ensUpper (S : SqrtOps) (fs : List (List ℚ)) (bands : Option Band) : List ℚ :=
  (List.range (fs.headD []).length).map
    (fun t =>
      (ensPoint fs).getD t 0 +
        ((ensBase fs bands).2.getD t 0 - (ensBase fs bands).1.getD t 0) / 2 +
        (ensStd S fs).getD t 0)

/-- `ensembleForecasts(forecasts, bands)`: throws (`none`) on an empty model
map, otherwise the equal-weight point forecast with re-centred, widened bands.
The forecasts map is modelled as the list of per-model point vectors in key
order; `bands` is the optional GBM band (`bands?.gbm`). -/
def ensembleForecasts (S : SqrtOps) (fs : List (List ℚ)) (bands : Option Band) :
    Option EnsembleResult :=
  if fs.isEmpty then none
  else some { point := ensPoint fs, lower5 := ensLower S fs bands, upper95 := ensUpper S fs bands }

/-- A concrete `JsOps` instantiation (identity interpretations) used to
exercise the GBM theorems on closed inputs. -/
def idOps : JsOps :=
  { log := fun x => x, sqrt := fun x => x, cosTwoPi := fun x => x, exp := fun x => x }

/-- A concrete `SqrtOps` instantiation used to exercise the ensemble theorems
on closed inputs. -/
def zeroSqrt : SqrtOps :=
  { sqrt := fun _ => 0, sqrt_nonneg := fun _ _ => le_refl 0 }

/-! ## Theorems -/

/-- C1: `forecastGBM` called twice with identical `(mu, sigma, lastPrice,
horizon, nPaths, seed)` produces identical `median`, `lower5` and `upper95`
arrays: the whole simulation — seeded Mulberry32 stream, Box–Muller transform,
path generation and percentile extraction — is a deterministic function of its
arguments. -/
theorem forecastGBM_deterministic (ops : JsOps) (mu₁ sigma₁ lp₁ mu₂ sigma₂ lp₂ : ℚ)
    (h₁ h₂ n₁ n₂ s₁ s₂ : ℕ) (hmu : mu₁ = mu₂) (hsig : sigma₁ = sigma₂) (hlp : lp₁ = lp₂)
    (hh : h₁ = h₂) (hn : n₁ = n₂) (hs : s₁ = s₂) :
    (forecastGBM ops ⟨mu₁, sigma₁, lp₁⟩ h₁ n₁ s₁).median =
        (forecastGBM ops ⟨mu₂, sigma₂, lp₂⟩ h₂ n₂ s₂).median ∧
      (forecastGBM ops ⟨mu₁, sigma₁, lp₁⟩ h₁ n₁ s₁).lower5 =
        (forecastGBM ops ⟨mu₂, sigma₂, lp₂⟩ h₂ n₂ s₂).lower5 ∧
      (forecastGBM ops ⟨mu₁, sigma₁, lp₁⟩ h₁ n₁ s₁).upper95 =
        (forecastGBM ops ⟨mu₂, sigma₂, lp₂⟩ h₂ n₂ s₂).upper95 := by
  subst hmu hsig hlp hh hn hs
  exact ⟨rfl, rfl, rfl⟩

/-- Witness for C1 at concrete inputs. -/
theorem forecastGBM_deterministic_witness :
    (1 : ℚ) = 1 ∧
      ((forecastGBM idOps ⟨1, 2, 100⟩ 3 4 42).median =
          (forecastGBM idOps ⟨1, 2, 100⟩ 3 4 42).median ∧
        (forecastGBM idOps ⟨1, 2, 100⟩ 3 4 42).lower5 =
          (forecastGBM idOps ⟨1, 2, 100⟩ 3 4 42).lower5 ∧
        (forecastGBM idOps ⟨1, 2, 100⟩ 3 4 42).upper95 =
          (forecastGBM idOps ⟨1, 2, 100⟩ 3 4 42).upper95) :=
  ⟨rfl, forecastGBM_deterministic idOps 1 2 100 1 2 100 3 3 4 4 42 42 rfl rfl rfl rfl rfl rfl⟩

lemma jsSlice_of_nonneg (arr : List ℚ) {s e : Int} (hs : 0 ≤ s) (he : 0 ≤ e) :
    jsSlice arr s e =
      (arr.take (min e (arr.length : Int)).toNat).drop (min s (arr.length : Int)).toNat := by
  simp only [jsSlice]
  rw [if_neg (by omega), if_neg (by omega)]

lemma timeSplit_floor_nonneg (arr : List ℚ) {f : ℚ} (hf : 0 ≤ f) :
    0 ≤ ⌊((arr.length : ℚ)) * f⌋ :=
  Int.floor_nonneg.mpr (mul_nonneg (by positivity) hf)

/-- The three segments of `timeSplit` in `take`/`drop` normal form, given
non-negative fractions. -/
lemma timeSplit_eq_take_drop (arr : List ℚ) (tf vf : ℚ) (h0 : 0 ≤ tf) (h2 : 0 ≤ vf) :
    timeSplit arr tf vf =
      { train := arr.take (min ⌊(arr.length : ℚ) * tf⌋ (arr.length : Int)).toNat
        val := (arr.take (min ⌊(arr.length : ℚ) * (tf + vf)⌋ (arr.length : Int)).toNat).drop
          (min ⌊(arr.length : ℚ) * tf⌋ (arr.length : Int)).toNat
        test := arr.drop (min ⌊(arr.length : ℚ) * (tf + vf)⌋ (arr.length : Int)).toNat } := by
  have hA := timeSplit_floor_nonneg arr h0
  have hB := timeSplit_floor_nonneg arr (add_nonneg h0 h2)
  simp only [timeSplit]
  rw [jsSlice_of_nonneg arr le_rfl hA, jsSlice_of_nonneg arr hA hB,
    jsSlice_of_nonneg arr hB (by positivity)]
  have h0n : (min (0 : Int) (arr.length : Int)).toNat = 0 := by omega
  have hnn : (min (arr.length : Int) (arr.length : Int)).toNat = arr.length := by omega
  rw [h0n, hnn, List.drop_zero, List.take_length]

lemma timeSplit_cut_le (arr : List ℚ) (tf vf : ℚ) (h2 : 0 ≤ vf) :
    (min ⌊(arr.length : ℚ) * tf⌋ (arr.length : Int)).toNat ≤
      (min ⌊(arr.length : ℚ) * (tf + vf)⌋ (arr.length : Int)).toNat := by
  have : ⌊(arr.length : ℚ) * tf⌋ ≤ ⌊(arr.length : ℚ) * (tf + vf)⌋ :=
    Int.floor_mono (by nlinarith [Nat.cast_nonneg (α := ℚ) arr.length])
  omega

/-- `timeSplit` partitions its input: the three segments concatenate back to
the input, in order. -/
lemma timeSplit_append (arr : List ℚ) (tf vf : ℚ) (h0 : 0 ≤ tf) (h2 : 0 ≤ vf) :
    (timeSplit arr tf vf).train ++ (timeSplit arr tf vf).val ++ (timeSplit arr tf vf).test =
      arr := by
  rw [timeSplit_eq_take_drop arr tf vf h0 h2]
  have hab := timeSplit_cut_le arr tf vf h2
  set a := (min ⌊(arr.length : ℚ) * tf⌋ (arr.length : Int)).toNat with ha
  set b := (min ⌊(arr.length : ℚ) * (tf + vf)⌋ (arr.length : Int)).toNat with hb
  have h1 : arr.take a = (arr.take b).take a := by
    rw [List.take_take, Nat.min_eq_left hab]
  calc arr.take a ++ (arr.take b).drop a ++ arr.drop b
      = (arr.take b).take a ++ (arr.take b).drop a ++ arr.drop b := by rw [← h1]
    _ = arr.take b ++ arr.drop b := by rw [List.take_append_drop]
    _ = arr := List.take_append_drop b arr

/-- C3: for every input array and non-negative fractions, `timeSplit` returns
three contiguous segments, cut at `floor(n*trainFrac)` and
`floor(n*(trainFrac+valFrac))`, whose lengths sum exactly to the input length,
with `train` entirely before `val` entirely before `test` in input order
(their concatenation in order is the input); in particular the concrete
scenario `[100,102,101,105,107,110,108,112]` with `trainFrac=0.5, valFrac=0.25`
yields `train=[100,102,101,105]`, `val=[107,110]`, `test=[108,112]`. -/
theorem timeSplit_spec (arr : List ℚ) (tf vf : ℚ) (h0 : 0 ≤ tf) (h2 : 0 ≤ vf) :
    ((timeSplit arr tf vf).train.length + (timeSplit arr tf vf).val.length +
        (timeSplit arr tf vf).test.length = arr.length) ∧
      ((timeSplit arr tf vf).train ++ (timeSplit arr tf vf).val ++ (timeSplit arr tf vf).test =
        arr) ∧
      timeSplit [100, 102, 101, 105, 107, 110, 108, 112] (1 / 2) (1 / 4) =
        { train := [100, 102, 101, 105], val := [107, 110], test := [108, 112] } := by
  have happ := timeSplit_append arr tf vf h0 h2
  refine ⟨?_, happ, ?_⟩
  · have := congrArg List.length happ
    simpa [List.length_append, Nat.add_assoc] using this
  · simp only [timeSplit, jsSlice]
    norm_num
    decide

/-- Witness for C3 at concrete inputs. -/
theorem timeSplit_spec_witness :
    (0 : ℚ) ≤ 3 / 4 ∧ (0 : ℚ) ≤ 1 / 8 ∧
      (((timeSplit [5, 7, 9] (3 / 4) (1 / 8)).train.length +
          (timeSplit [5, 7, 9] (3 / 4) (1 / 8)).val.length +
          (timeSplit [5, 7, 9] (3 / 4) (1 / 8)).test.length = ([5, 7, 9] : List ℚ).length) ∧
        ((timeSplit [5, 7, 9] (3 / 4) (1 / 8)).train ++ (timeSplit [5, 7, 9] (3 / 4) (1 / 8)).val ++
            (timeSplit [5, 7, 9] (3 / 4) (1 / 8)).test = [5, 7, 9]) ∧
        timeSplit [100, 102, 101, 105, 107, 110, 108, 112] (1 / 2) (1 / 4) =
          { train := [100, 102, 101, 105], val := [107, 110], test := [108, 112] }) :=
  ⟨by norm_num, by norm_num,
    timeSplit_spec [5, 7, 9] (3 / 4) (1 / 8) (by norm_num) (by norm_num)⟩

/-- C9 counterexample: `timeSplit` never raises.  On a one-element series with
the default fractions it simply returns the segments — an empty `train`
(smaller than any model's minimum) and the data in `test` — instead of failing
with an `InsufficientDataError`. -/
theorem timeSplit_returns_undersized :
    timeSplit [1] (8 / 10) (1 / 10) = { train := [], val := [], test := [1] } := by
  simp only [timeSplit, jsSlice]
  norm_num

/-- C9 amended: `timeSplit` itself performs no length validation and always
returns the three segments (their concatenation is the input, whatever the
segment sizes); the insufficient-data failure lives in the caller
(`App.handleRun`), which rejects the run before splitting whenever the series
has fewer than `lookback + 30 + 50` points. -/
theorem timeSplit_never_fails (arr : List ℚ) (tf vf : ℚ) (h0 : 0 ≤ tf) (h2 : 0 ≤ vf)
    (nPrices lookback : ℕ) (hshort : nPrices < lookback + 30 + 50) :
    ((timeSplit arr tf vf).train ++ (timeSplit arr tf vf).val ++ (timeSplit arr tf vf).test =
        arr) ∧
      appDataCheckFails nPrices lookback = true := by
  exact ⟨timeSplit_append arr tf vf h0 h2, by simp [appDataCheckFails, hshort]⟩

/-- Witness for the amended C9 at concrete inputs. -/
theorem timeSplit_never_fails_witness :
    (0 : ℚ) ≤ 8 / 10 ∧ (0 : ℚ) ≤ 1 / 10 ∧ 1 < 10 + 30 + 50 ∧
      (((timeSplit [1] (8 / 10) (1 / 10)).train ++ (timeSplit [1] (8 / 10) (1 / 10)).val ++
          (timeSplit [1] (8 / 10) (1 / 10)).test = [1]) ∧
        appDataCheckFails 1 10 = true) :=
  ⟨by norm_num, by norm_num, by norm_num,
    timeSplit_never_fails [1] (8 / 10) (1 / 10) (by norm_num) (by norm_num) 1 10 (by norm_num)⟩

lemma fitMinMaxScaler_range_ne_zero (data : List ℚ) : (fitMinMaxScaler data).range ≠ 0 := by
  simp only [fitMinMaxScaler]
  split
  · norm_num
  · assumption

lemma scaler_roundtrip (s : Scaler) (hr : s.range ≠ 0) (x : List ℚ) :
    scalerInverse s (scalerTransform s x) = x := by
  simp only [scalerTransform, scalerInverse, List.map_map]
  have h : ∀ a ∈ x, ((fun v => v * s.range + s.min) ∘ fun v => (v - s.min) / s.range) a = id a := by
    intro a _
    simp only [Function.comp, id]
    field_simp
  rw [List.map_congr_left h, List.map_id]

lemma foldl_minStep_const (c : ℚ) (l : List ℚ) (h : ∀ v ∈ l, v = c) :
    l.foldl minStep (some c) = some c := by
  induction l with
  | nil => rfl
  | cons a t ih =>
    have ha : a = c := h a (List.mem_cons_self a t)
    rw [List.foldl_cons, show minStep (some c) a = some c by simp [minStep, ha]]
    exact ih (fun v hv => h v (List.mem_cons_of_mem a hv))

lemma foldl_maxStep_const (c : ℚ) (l : List ℚ) (h : ∀ v ∈ l, v = c) :
    l.foldl maxStep (some c) = some c := by
  induction l with
  | nil => rfl
  | cons a t ih =>
    have ha : a = c := h a (List.mem_cons_self a t)
    rw [List.foldl_cons, show maxStep (some c) a = some c by simp [maxStep, ha]]
    exact ih (fun v hv => h v (List.mem_cons_of_mem a hv))

lemma jsFoldMin_const (data : List ℚ) (c : ℚ) (hne : data ≠ []) (h : ∀ v ∈ data, v = c) :
    jsFoldMin data = some c := by
  cases data with
  | nil => exact absurd rfl hne
  | cons a t =>
    have ha : a = c := h a (List.mem_cons_self a t)
    rw [jsFoldMin, List.foldl_cons, show minStep none a = some c by simp [minStep, ha]]
    exact foldl_minStep_const c t (fun v hv => h v (List.mem_cons_of_mem a hv))

lemma jsFoldMax_const (data : List ℚ) (c : ℚ) (hne : data ≠ []) (h : ∀ v ∈ data, v = c) :
    jsFoldMax data = some c := by
  cases data with
  | nil => exact absurd rfl hne
  | cons a t =>
    have ha : a = c := h a (List.mem_cons_self a t)
    rw [jsFoldMax, List.foldl_cons, show maxStep none a = some c by simp [maxStep, ha]]
    exact foldl_maxStep_const c t (fun v hv => h v (List.mem_cons_of_mem a hv))

lemma fitMinMaxScaler_const (data : List ℚ) (c : ℚ) (hne : data ≠ [])
    (h : ∀ v ∈ data, v = c) : fitMinMaxScaler data = { min := c, max := c, range := 1 } := by
  simp [fitMinMaxScaler, jsFoldMin_const data c hne h, jsFoldMax_const data c hne h]

/-- C2: for every non-empty series, the scaler of `fitMinMaxScaler`
round-trips: `inverse(transform(x)) = x` element-wise (exactly, in the
rational model — in particular within floating-point tolerance); and on a
constant series the scaler has `range = 1`, `transform` maps the series to all
zeros, and `inverse` maps those zeros back to the constant series. -/
theorem fitMinMaxScaler_roundtrip (data : List ℚ) (hne : data ≠ []) :
    (∀ x : List ℚ,
        scalerInverse (fitMinMaxScaler data) (scalerTransform (fitMinMaxScaler data) x) = x) ∧
      (∀ c : ℚ, (∀ v ∈ data, v = c) →
        (fitMinMaxScaler data).range = 1 ∧
          scalerTransform (fitMinMaxScaler data) data = data.map (fun _ => 0) ∧
          scalerInverse (fitMinMaxScaler data) (data.map (fun _ => 0)) = data) := by
  refine ⟨fun x => scaler_roundtrip _ (fitMinMaxScaler_range_ne_zero data) x, ?_⟩
  intro c hc
  have hs := fitMinMaxScaler_const data c hne hc
  refine ⟨by rw [hs], ?_, ?_⟩
  · rw [hs]
    simp only [scalerTransform]
    apply List.map_congr_left
    intro a ha
    rw [hc a ha]
    simp
  · rw [hs]
    simp only [scalerInverse, List.map_map]
    have h : ∀ a ∈ data, ((fun v => v * (1 : ℚ) + c) ∘ fun _ => (0 : ℚ)) a = id a := by
      intro a ha
      simp only [Function.comp, id]
      rw [hc a ha]
      ring
    rw [List.map_congr_left h, List.map_id]

/-- Witness for C2 at concrete inputs. -/
theorem fitMinMaxScaler_roundtrip_witness :
    (([5, 5] : List ℚ) ≠ []) ∧ (∀ v ∈ ([5, 5] : List ℚ), v = (5 : ℚ)) ∧
      scalerInverse (fitMinMaxScaler [5, 5]) (scalerTransform (fitMinMaxScaler [5, 5]) [1, 2]) =
        [1, 2] ∧
      (fitMinMaxScaler [5, 5]).range = 1 ∧
      scalerTransform (fitMinMaxScaler [5, 5]) [5, 5] = ([5, 5] : List ℚ).map (fun _ => 0) ∧
      scalerInverse (fitMinMaxScaler [5, 5]) (([5, 5] : List ℚ).map (fun _ => 0)) = [5, 5] :=
  ⟨by simp, by simp,
    (fitMinMaxScaler_roundtrip [5, 5] (by simp)).1 [1, 2],
    ((fitMinMaxScaler_roundtrip [5, 5] (by simp)).2 5 (by simp)).1,
    ((fitMinMaxScaler_roundtrip [5, 5] (by simp)).2 5 (by simp)).2.1,
    ((fitMinMaxScaler_roundtrip [5, 5] (by simp)).2 5 (by simp)).2.2⟩

lemma getD_map_range (n t : ℕ) (f : ℕ → ℚ) (ht : t < n) :
    ((List.range n).map f).getD t 0 = f t := by
  rw [List.getD_eq_getElem?_getD, List.getElem?_map, List.getElem?_range ht]
  rfl

lemma getD_map_of_lt (f : ℚ → ℚ) (l : List ℚ) (t : ℕ) (ht : t < l.length) :
    (l.map f).getD t 0 = f (l.getD t 0) := by
  rw [List.getD_eq_getElem (l.map f) 0 (by simpa using ht), List.getElem_map,
    List.getD_eq_getElem l 0 ht]

lemma foldl_weighted_sum (w : ℚ) (t : ℕ) (l : List (List ℚ)) (a : ℚ) :
    l.foldl (fun acc f => acc + w * f.getD t 0) a = a + w * (l.map (fun f => f.getD t 0)).sum := by
  induction l generalizing a with
  | nil => simp
  | cons x xs ih =>
    rw [List.foldl_cons, ih, List.map_cons, List.sum_cons]
    ring

lemma ensPoint_getD (fs : List (List ℚ)) (t : ℕ) (ht : t < (fs.headD []).length) :
    (ensPoint fs).getD t 0 = (fs.map (fun f => f.getD t 0)).sum / (fs.length : ℚ) := by
  rw [ensPoint, getD_map_range _ _ _ ht, foldl_weighted_sum]
  ring

lemma ensPoint_length (fs : List (List ℚ)) : (ensPoint fs).length = (fs.headD []).length := by
  simp [ensPoint]

lemma ensStd_nonneg (S : SqrtOps) (fs : List (List ℚ)) (t : ℕ)
    (ht : t < (fs.headD []).length) : 0 ≤ (ensStd S fs).getD t 0 := by
  rw [ensStd, getD_map_range _ _ _ ht]
  apply S.sqrt_nonneg
  apply div_nonneg
  · apply List.sum_nonneg
    intro x hx
    obtain ⟨v, _, rfl⟩ := List.mem_map.mp hx
    positivity
  · positivity

lemma ensembleForecasts_eq (S : SqrtOps) (fs : List (List ℚ)) (bands : Option Band)
    (hne : fs ≠ []) :
    ensembleForecasts S fs bands =
      some { point := ensPoint fs, lower5 := ensLower S fs bands, upper95 := ensUpper S fs bands } := by
  rw [ensembleForecasts, if_neg]
  simp [List.isEmpty_iff, hne]

/-- C7: for every non-empty forecasts map whose per-model vectors all have the
first model's horizon length, the ensemble point forecast at each step is the
equal-weight average (weight `1/modelCount`) of all models' forecasts at that
step. -/
theorem ensembleForecasts_point_mean (S : SqrtOps) (fs : List (List ℚ)) (bands : Option Band)
    (hne : fs ≠ []) (hlen : ∀ f ∈ fs, f.length = (fs.headD []).length) :
    ∃ r, ensembleForecasts S fs bands = some r ∧
      r.point.length = (fs.headD []).length ∧
      ∀ t, t < (fs.headD []).length →
        r.point.getD t 0 = (fs.map (fun f => f.getD t 0)).sum / (fs.length : ℚ) := by
  refine ⟨_, ensembleForecasts_eq S fs bands hne, ensPoint_length fs, ?_⟩
  intro t ht
  exact ensPoint_getD fs t ht

/-- Witness for C7 at concrete inputs. -/
theorem ensembleForecasts_point_mean_witness :
    (([[1, 2], [3, 4]] : List (List ℚ)) ≠ []) ∧
      (∀ f ∈ ([[1, 2], [3, 4]] : List (List ℚ)), f.length =
        (([[1, 2], [3, 4]] : List (List ℚ)).headD []).length) ∧
      ∃ r, ensembleForecasts zeroSqrt [[1, 2], [3, 4]] none = some r ∧
        r.point.length = (([[1, 2], [3, 4]] : List (List ℚ)).headD []).length ∧
        ∀ t, t < (([[1, 2], [3, 4]] : List (List ℚ)).headD []).length →
          r.point.getD t 0 =
            (([[1, 2], [3, 4]] : List (List ℚ)).map (fun f => f.getD t 0)).sum /
              (([[1, 2], [3, 4]] : List (List ℚ)).length : ℚ) :=
  ⟨by simp, by simp,
    ensembleForecasts_point_mean zeroSqrt [[1, 2], [3, 4]] none (by simp) (by simp)⟩

lemma ensLower_getD (S : SqrtOps) (fs : List (List ℚ)) (bands : Option Band) (t : ℕ)
    (ht : t < (fs.headD []).length) :
    (ensLower S fs bands).getD t 0 =
      (ensPoint fs).getD t 0 -
        ((ensBase fs bands).2.getD t 0 - (ensBase fs bands).1.getD t 0) / 2 -
        (ensStd S fs).getD t 0 := by
  rw [ensLower, getD_map_range _ _ _ ht]

lemma ensUpper_getD (S : SqrtOps) (fs : List (List ℚ)) (bands : Option Band) (t : ℕ)
    (ht : t < (fs.headD []).length) :
    (ensUpper S fs bands).getD t 0 =
      (ensPoint fs).getD t 0 +
        ((ensBase fs bands).2.getD t 0 - (ensBase fs bands).1.getD t 0) / 2 +
        (ensStd S fs).getD t 0 := by
  rw [ensUpper, getD_map_range _ _ _ ht]

lemma ens_width (S : SqrtOps) (fs : List (List ℚ)) (bands : Option Band) (t : ℕ)
    (ht : t < (fs.headD []).length) :
    (ensUpper S fs bands).getD t 0 - (ensLower S fs bands).getD t 0 =
      ((ensBase fs bands).2.getD t 0 - (ensBase fs bands).1.getD t 0) +
        2 * (ensStd S fs).getD t 0 := by
  rw [ensLower_getD S fs bands t ht, ensUpper_getD S fs bands t ht]
  ring

/-- C8: for every non-empty forecasts map (vectors of the common horizon
length, bands — when supplied — of that length too) and every step `t`, the
ensemble band is at least as wide as the base band: the half-spread is widened
additively by the non-negative cross-model standard deviation.  With a
supplied band the base width is that band's width; without one it is the
`±5%`-of-point default (`point*1.05 - point*0.95`). -/
theorem ensembleForecasts_band_widening (S : SqrtOps) (fs : List (List ℚ))
    (bands : Option Band) (hne : fs ≠ [])
    (hlen : ∀ f ∈ fs, f.length = (fs.headD []).length)
    (hb : ∀ b, bands = some b → b.lower5.length = (fs.headD []).length ∧
      b.upper95.length = (fs.headD []).length) :
    ∃ r, ensembleForecasts S fs bands = some r ∧
      ∀ t, t < (fs.headD []).length →
        (∀ b, bands = some b →
          b.upper95.getD t 0 - b.lower5.getD t 0 ≤ r.upper95.getD t 0 - r.lower5.getD t 0) ∧
        (bands = none →
          r.point.getD t 0 * (21 / 20) - r.point.getD t 0 * (19 / 20) ≤
            r.upper95.getD t 0 - r.lower5.getD t 0) := by
  refine ⟨_, ensembleForecasts_eq S fs bands hne, ?_⟩
  intro t ht
  have hstd := ensStd_nonneg S fs t ht
  have hw := ens_width S fs bands t ht
  constructor
  · intro b hbeq
    subst hbeq
    rw [hw]
    simp only [ensBase]
    linarith
  · intro hbeq
    subst hbeq
    rw [hw]
    simp only [ensBase]
    have hpl : t < (ensPoint fs).length := by rw [ensPoint_length]; exact ht
    rw [getD_map_of_lt _ _ _ hpl, getD_map_of_lt _ _ _ hpl]
    linarith

/-- Witness for C8 at concrete inputs. -/
theorem ensembleForecasts_band_widening_witness :
    (([[1, 2], [3, 4]] : List (List ℚ)) ≠ []) ∧
      (∀ f ∈ ([[1, 2], [3, 4]] : List (List ℚ)), f.length =
        (([[1, 2], [3, 4]] : List (List ℚ)).headD []).length) ∧
      (∀ b, (some { lower5 := [1, 1], upper95 := [2, 2] } : Option Band) = some b →
        b.lower5.length = (([[1, 2], [3, 4]] : List (List ℚ)).headD []).length ∧
        b.upper95.length = (([[1, 2], [3, 4]] : List (List ℚ)).headD []).length) ∧
      ∃ r, ensembleForecasts zeroSqrt [[1, 2], [3, 4]]
          (some { lower5 := [1, 1], upper95 := [2, 2] }) = some r ∧
        ∀ t, t < (([[1, 2], [3, 4]] : List (List ℚ)).headD []).length →
          (∀ b, (some { lower5 := [1, 1], upper95 := [2, 2] } : Option Band) = some b →
            b.upper95.getD t 0 - b.lower5.getD t 0 ≤ r.upper95.getD t 0 - r.lower5.getD t 0) ∧
          ((some { lower5 := [1, 1], upper95 := [2, 2] } : Option Band) = none →
            r.point.getD t 0 * (21 / 20) - r.point.getD t 0 * (19 / 20) ≤
              r.upper95.getD t 0 - r.lower5.getD t 0) :=
  ⟨by simp, by simp,
    by intro b hb; cases hb; exact ⟨rfl, rfl⟩,
    ensembleForecasts_band_widening zeroSqrt [[1, 2], [3, 4]]
      (some { lower5 := [1, 1], upper95 := [2, 2] }) (by simp) (by simp)
      (by intro b hb; cases hb; exact ⟨rfl, rfl⟩)⟩

/-- C10: the ensemble bands are symmetric around the ensemble point: the base
band contributes only its half-width, and both band edges are re-centred on
the ensemble point, so `lower5[t] + upper95[t] = 2 * point[t]` at every step. -/
theorem ensembleForecasts_band_symmetric (S : SqrtOps) (fs : List (List ℚ))
    (bands : Option Band) (hne : fs ≠ [])
    (hlen : ∀ f ∈ fs, f.length = (fs.headD []).length) :
    ∃ r, ensembleForecasts S fs bands = some r ∧
      ∀ t, t < (fs.headD []).length →
        r.lower5.getD t 0 + r.upper95.getD t 0 = 2 * r.point.getD t 0 := by
  refine ⟨_, ensembleForecasts_eq S fs bands hne, ?_⟩
  intro t ht
  rw [ensLower_getD S fs bands t ht, ensUpper_getD S fs bands t ht]
  ring

/-- Witness for C10 at concrete inputs. -/
theorem ensembleForecasts_band_symmetric_witness :
    (([[1, 2], [3, 4]] : List (List ℚ)) ≠ []) ∧
      (∀ f ∈ ([[1, 2], [3, 4]] : List (List ℚ)), f.length =
        (([[1, 2], [3, 4]] : List (List ℚ)).headD []).length) ∧
      ∃ r, ensembleForecasts zeroSqrt [[1, 2], [3, 4]] none = some r ∧
        ∀ t, t < (([[1, 2], [3, 4]] : List (List ℚ)).headD []).length →
          r.lower5.getD t 0 + r.upper95.getD t 0 = 2 * r.point.getD t 0 :=
  ⟨by simp, by simp,
    ensembleForecasts_band_symmetric zeroSqrt [[1, 2], [3, 4]] none (by simp) (by simp)⟩

lemma genPaths_length (ops : JsOps) (prm : GBMParams) (H : ℕ) :
    ∀ (n s : ℕ), ((genPaths ops prm H s n).2).length = n := by
  intro n
  induction n with
  | zero => intro s; rfl
  | succ k ih =>
    intro s
    simp only [genPaths, List.length_cons]
    rw [ih]

lemma gbmColumn_length (paths : List (List ℚ)) (t : ℕ) :
    (gbmColumn paths t).length = paths.length := by
  rw [gbmColumn, (List.perm_insertionSort _ _).length_eq, List.length_map]

lemma gbmColumn_sorted (paths : List (List ℚ)) (t : ℕ) :
    List.Sorted (· ≤ ·) (gbmColumn paths t) :=
  List.sorted_insertionSort _ _

lemma getD_le_getD_of_sorted (l : List ℚ) (hs : List.Sorted (· ≤ ·) l) (i j : ℕ)
    (hij : i ≤ j) (hj : j < l.length) : l.getD i 0 ≤ l.getD j 0 := by
  have hi : i < l.length := lt_of_le_of_lt hij hj
  rw [List.getD_eq_getElem l 0 hi, List.getD_eq_getElem l 0 hj]
  have h := hs.rel_get_of_le (a := ⟨i, hi⟩) (b := ⟨j, hj⟩) hij
  simpa [List.get_eq_getElem] using h

lemma pctIdx_mono (N : ℕ) {q1 q2 : ℚ} (h : q1 ≤ q2) : pctIdx N q1 ≤ pctIdx N q2 := by
  have : ⌊(N : ℚ) * q1⌋ ≤ ⌊(N : ℚ) * q2⌋ :=
    Int.floor_mono (mul_le_mul_of_nonneg_left h (by positivity))
  simp only [pctIdx]
  omega

lemma pctIdx_lt (N : ℕ) (hN : 1 ≤ N) : pctIdx N (19 / 20) < N := by
  have h1 : (1 : ℚ) ≤ (N : ℚ) := by exact_mod_cast hN
  have : ⌊(N : ℚ) * (19 / 20)⌋ < (N : Int) := by
    rw [Int.floor_lt]
    push_cast
    nlinarith
  simp only [pctIdx]
  omega

/-- C6: for `nPaths ≥ 1` and `horizon ≥ 1`, the three `forecastGBM` outputs
are ordered at every step `t < horizon`: `lower5[t] ≤ median[t] ≤ upper95[t]`,
because each per-step column is sorted ascending and indexed at
`floor(nPaths*0.05) ≤ floor(nPaths*0.5) ≤ floor(nPaths*0.95)`. -/
theorem forecastGBM_band_order (ops : JsOps) (prm : GBMParams) (H N seed : ℕ)
    (hN : 1 ≤ N) (hH : 1 ≤ H) :
    ∀ t, t < H →
      (forecastGBM ops prm H N seed).lower5.getD t 0 ≤
          (forecastGBM ops prm H N seed).median.getD t 0 ∧
        (forecastGBM ops prm H N seed).median.getD t 0 ≤
          (forecastGBM ops prm H N seed).upper95.getD t 0 := by
  intro t ht
  simp only [forecastGBM]
  rw [getD_map_range _ _ _ ht, getD_map_range _ _ _ ht, getD_map_range _ _ _ ht]
  have hs := gbmColumn_sorted ((genPaths ops prm H seed N).2) (t + 1)
  have hlen : (gbmColumn ((genPaths ops prm H seed N).2) (t + 1)).length = N := by
    rw [gbmColumn_length, genPaths_length]
  have h95 : pctIdx N (19 / 20) < (gbmColumn ((genPaths ops prm H seed N).2) (t + 1)).length := by
    rw [hlen]; exact pctIdx_lt N hN
  constructor
  · exact getD_le_getD_of_sorted _ hs _ _ (pctIdx_mono N (by norm_num))
      (lt_of_le_of_lt (pctIdx_mono N (by norm_num)) h95)
  · exact getD_le_getD_of_sorted _ hs _ _ (pctIdx_mono N (by norm_num)) h95

/-- Witness for C6 at concrete inputs. -/
theorem forecastGBM_band_order_witness :
    1 ≤ 1 ∧ 1 ≤ 1 ∧
      ((forecastGBM idOps ⟨0, 0, 1⟩ 1 1 0).lower5.getD 0 0 ≤
          (forecastGBM idOps ⟨0, 0, 1⟩ 1 1 0).median.getD 0 0 ∧
        (forecastGBM idOps ⟨0, 0, 1⟩ 1 1 0).median.getD 0 0 ≤
          (forecastGBM idOps ⟨0, 0, 1⟩ 1 1 0).upper95.getD 0 0) :=
  ⟨le_refl 1, le_refl 1,
    forecastGBM_band_order idOps ⟨0, 0, 1⟩ 1 1 0 (le_refl 1) (le_refl 1) 0 (by norm_num)⟩

lemma buildTree_unfold (X : List (List ℚ)) (y : List ℚ) (depth : ℕ) (maxDepth : Option ℕ)
    (minSplit minLeaf : ℕ) :
    buildTree X y depth maxDepth minSplit minLeaf =
      if stopCond y depth maxDepth minSplit minLeaf then TreeNode.leaf (meanQ y)
      else
        match bestSplit X y minLeaf with
        | none => TreeNode.leaf (meanQ y)
        | some c =>
          TreeNode.node c.featureIdx c.threshold (meanQ y)
            (buildTreeAux X.length (c.leftIdx.map (fun i => X.getD i []))
              (c.leftIdx.map (fun i => y.getD i 0)) (depth + 1) maxDepth minSplit minLeaf)
            (buildTreeAux X.length (c.rightIdx.map (fun i => X.getD i []))
              (c.rightIdx.map (fun i => y.getD i 0)) (depth + 1) maxDepth minSplit minLeaf) := by
  rfl

lemma stopCond_iff (y : List ℚ) (depth : ℕ) (maxDepth : Option ℕ) (minSplit minLeaf : ℕ) :
    stopCond y depth maxDepth minSplit minLeaf = true ↔
      (y.length < minSplit ∨ y.length < 2 * minLeaf ∨
        (∃ md, maxDepth = some md ∧ md ≤ depth) ∨ mseQ y < 1 / 1000000000000) := by
  cases maxDepth with
  | none => simp [stopCond, depthDone]; tauto
  | some md => simp [stopCond, depthDone]; tauto

/-- C4 amended: with non-empty targets, `buildTree` returns a leaf whenever
one of the four stated conditions holds (`y.length < minSamplesSplit`,
`y.length < 2*minSamplesLeaf`, depth budget exhausted, target MSE below
`1e-12`); whenever the call returns a leaf its prediction is the mean of the
call's targets; `maxDepth = 0` forces a single leaf with the mean of the whole
training target set; and `minSamplesLeaf = 10` on 8 samples forces a single
leaf.  (The four conditions are sufficient but not exhaustive: a leaf also
arises when no valid split candidate exists.) -/
theorem buildTree_leaf_cases (X : List (List ℚ)) (y : List ℚ) (depth : ℕ)
    (maxDepth : Option ℕ) (minSplit minLeaf : ℕ) (hy : y ≠ []) :
    ((y.length < minSplit ∨ y.length < 2 * minLeaf ∨
        (∃ md, maxDepth = some md ∧ md ≤ depth) ∨ mseQ y < 1 / 1000000000000) →
      buildTree X y depth maxDepth minSplit minLeaf = TreeNode.leaf (meanQ y)) ∧
      (∀ v, buildTree X y depth maxDepth minSplit minLeaf = TreeNode.leaf v → v = meanQ y) ∧
      buildTree X y depth (some 0) minSplit minLeaf = TreeNode.leaf (meanQ y) ∧
      (y.length = 8 → buildTree X y depth maxDepth minSplit 10 = TreeNode.leaf (meanQ y)) := by
  refine ⟨?_, ?_, ?_, ?_⟩
  · intro h
    rw [buildTree_unfold, if_pos ((stopCond_iff y depth maxDepth minSplit minLeaf).mpr h)]
  · intro v hv
    rw [buildTree_unfold] at hv
    by_cases hc : stopCond y depth maxDepth minSplit minLeaf = true
    · rw [if_pos hc] at hv
      exact (TreeNode.leaf.injEq _ _).mp hv.symm
    · rw [if_neg hc] at hv
      cases hbs : bestSplit X y minLeaf with
      | none =>
        rw [hbs] at hv
        exact (TreeNode.leaf.injEq _ _).mp hv.symm
      | some c =>
        rw [hbs] at hv
        exact absurd hv (by simp)
  · rw [buildTree_unfold,
      if_pos ((stopCond_iff y depth (some 0) minSplit minLeaf).mpr
        (Or.inr (Or.inr (Or.inl ⟨0, rfl, Nat.zero_le depth⟩))))]
  · intro h8
    rw [buildTree_unfold,
      if_pos ((stopCond_iff y depth maxDepth minSplit 10).mpr (Or.inr (Or.inl (by omega))))]

/-- Witness for the amended C4 at concrete inputs. -/
theorem buildTree_leaf_cases_witness :
    (([3, 4] : List ℚ) ≠ []) ∧ ([3, 4] : List ℚ).length < 5 ∧
      buildTree [[0], [1]] [3, 4] 0 none 5 1 = TreeNode.leaf (meanQ [3, 4]) ∧
      (∀ v, buildTree [[0], [1]] [3, 4] 0 none 5 1 = TreeNode.leaf v → v = meanQ [3, 4]) ∧
      buildTree [[0], [1]] [3, 4] 0 (some 0) 5 1 = TreeNode.leaf (meanQ [3, 4]) ∧
      ([1, 2, 3, 4, 5, 6, 7, 8] : List ℚ).length = 8 ∧
      buildTree [[0]] [1, 2, 3, 4, 5, 6, 7, 8] 0 none 2 10 =
        TreeNode.leaf (meanQ [1, 2, 3, 4, 5, 6, 7, 8]) :=
  ⟨by simp, by simp,
    (buildTree_leaf_cases [[0], [1]] [3, 4] 0 none 5 1 (by simp)).1 (Or.inl (by simp)),
    (buildTree_leaf_cases [[0], [1]] [3, 4] 0 none 5 1 (by simp)).2.1,
    (buildTree_leaf_cases [[0], [1]] [3, 4] 0 (some 0) 5 1 (by simp)).2.2.1,
    by simp,
    (buildTree_leaf_cases [[0]] [1, 2, 3, 4, 5, 6, 7, 8] 0 none 2 10 (by simp)).2.2.2
      (by simp)⟩

/-- C4 counterexample: on two samples with identical feature rows but distinct
targets (`X = [[0],[0]]`, `y = [0,10]`, `minSamplesSplit = 2`,
`minSamplesLeaf = 1`, unlimited depth), none of the four stated leaf
conditions holds (`stopCond` is `false`), yet `buildTree` still returns a
leaf — the constant feature admits no split candidate.  So "returns a leaf
exactly when one of the four conditions holds" fails on the code. -/
theorem buildTree_leaf_without_conditions :
    buildTree [[0], [0]] [0, 10] 0 none 2 1 = TreeNode.leaf 5 ∧
      stopCond [0, 10] 0 none 2 1 = false := by
  have hmse : mseQ [0, 10] = 25 := by
    norm_num [mseQ, meanQ]
  have hstop : stopCond [0, 10] 0 none 2 1 = false := by
    simp [stopCond, depthDone, hmse]
    norm_num
  have hbs : bestSplit [[0], [0]] [0, 10] 1 = none := by decide
  refine ⟨?_, hstop⟩
  rw [buildTree_unfold, if_neg (by rw [hstop]; simp), hbs]
  norm_num [meanQ]

lemma selectCand_eq_selAux (y : List ℚ) (minLeaf : ℕ) :
    ∀ (cs : List Cand) (best : Option Cand),
      selectCand y minLeaf best cs = selAux y best (cs.filter (validCand minLeaf)) := by
  intro cs
  induction cs with
  | nil => intro best; rw [List.filter_nil]; cases best <;> rfl
  | cons c cs ih =>
    intro best
    by_cases hv : validCand minLeaf c = true
    · rw [List.filter_cons_of_pos hv]
      simp only [selectCand, hv, if_true]
      cases best with
      | none => simp only [selAux]; exact ih (some c)
      | some b =>
        simp only [selAux]
        split
        · exact ih (some c)
        · exact ih (some b)
    · rw [List.filter_cons_of_neg hv]
      simp only [selectCand, hv, Bool.false_eq_true, if_false]
      exact ih best

lemma gain_lt_iff (y : List ℚ) (b c : Cand) :
    gainQ y b < gainQ y c ↔ wMSE y c < wMSE y b := by
  rw [gainQ, gainQ]
  exact sub_lt_sub_iff_left (mseQ y)

lemma selAux_some (y : List ℚ) :
    ∀ (cs : List Cand) (b : Cand),
      ∃ r, selAux y (some b) cs = some r ∧ IsFirstMin y (b :: cs) r := by
  intro cs
  induction cs with
  | nil =>
    intro b
    exact ⟨b, rfl, [], [], rfl, by simp, by simp⟩
  | cons c cs ih =>
    intro b
    by_cases hg : gainQ y b < gainQ y c
    · have hw : wMSE y c < wMSE y b := (gain_lt_iff y b c).mp hg
      obtain ⟨r, hr, pre, post, hdec, hpre, hpost⟩ := ih c
      have hrc : wMSE y r ≤ wMSE y c := by
        cases pre with
        | nil =>
          rw [List.nil_append] at hdec
          obtain ⟨h1, _⟩ := List.cons_eq_cons.mp hdec
          rw [← h1]
        | cons p ps =>
          rw [List.cons_append] at hdec
          obtain ⟨h1, _⟩ := List.cons_eq_cons.mp hdec
          rw [h1]
          exact le_of_lt (hpre p (List.mem_cons_self p ps))
      refine ⟨r, ?_, b :: pre, post, ?_, ?_, hpost⟩
      · simp only [selAux]; rw [if_pos hg]; exact hr
      · rw [List.cons_append, ← hdec]
      · intro x hx
        rcases List.mem_cons.mp hx with hxb | hxp
        · rw [hxb]; exact lt_of_le_of_lt hrc hw
        · exact hpre x hxp
    · have hw : wMSE y b ≤ wMSE y c := by
        have := (not_iff_not.mpr (gain_lt_iff y b c)).mp hg
        exact le_of_not_lt this
      obtain ⟨r, hr, pre, post, hdec, hpre, hpost⟩ := ih b
      have hsel : selAux y (some b) (c :: cs) = some r := by
        simp only [selAux]; rw [if_neg hg]; exact hr
      cases pre with
      | nil =>
        rw [List.nil_append] at hdec
        obtain ⟨hbr, hcs⟩ := List.cons_eq_cons.mp hdec
        refine ⟨r, hsel, [], c :: cs, by rw [List.nil_append, hbr], by simp, ?_⟩
        intro x hx
        rcases List.mem_cons.mp hx with hxc | hxcs
        · rw [hxc, ← hbr]; exact hw
        · rw [hcs] at hxcs; exact hpost x hxcs
      | cons p ps =>
        rw [List.cons_append] at hdec
        obtain ⟨hbp, hcs⟩ := List.cons_eq_cons.mp hdec
        have hrp : wMSE y r < wMSE y b := by
          rw [hbp]; exact hpre p (List.mem_cons_self p ps)
        refine ⟨r, hsel, b :: c :: ps, post, ?_, ?_, hpost⟩
        · rw [hcs]; rfl
        · intro x hx
          rcases List.mem_cons.mp hx with hxb | hx2
          · rw [hxb]; exact hrp
          · rcases List.mem_cons.mp hx2 with hxc | hxps
            · rw [hxc]; exact lt_of_lt_of_le hrp hw
            · exact hpre x (List.mem_cons_of_mem p hxps)

/-- C5: the split search considers exactly the midpoints of consecutive unique
sorted feature values of each considered feature (in feature-then-threshold
order), keeps only candidates whose two children both have at least
`minSamplesLeaf` samples, and `bestSplit` returns the first-encountered
candidate minimising the size-weighted child MSE (equivalently maximising the
gain over the parent MSE): every earlier valid candidate is strictly worse and
no valid candidate is better.  When no candidate survives the
`minSamplesLeaf` check, the node becomes a leaf regardless of the remaining
depth budget. -/
theorem bestSplit_first_min (X : List (List ℚ)) (y : List ℚ) (minLeaf : ℕ) :
    (bestSplit X y minLeaf = none ↔ validCands X minLeaf = []) ∧
      (∀ b, bestSplit X y minLeaf = some b →
        IsFirstMin y (validCands X minLeaf) b ∧
          ∀ c ∈ validCands X minLeaf, wMSE y b ≤ wMSE y c) ∧
      (∀ c ∈ allCands X, ∃ fi t, fi < (X.headD []).length ∧
        t + 1 < (sortedUniques X fi).length ∧
        c = mkCand X fi
          (((sortedUniques X fi).getD t 0 + (sortedUniques X fi).getD (t + 1) 0) / 2)) ∧
      (∀ depth maxD minSplit, validCands X minLeaf = [] →
        buildTree X y depth maxD minSplit minLeaf = TreeNode.leaf (meanQ y)) := by
  have hbs_eq : bestSplit X y minLeaf = selAux y none (validCands X minLeaf) :=
    selectCand_eq_selAux y minLeaf (allCands X) none
  refine ⟨?_, ?_, ?_, ?_⟩
  · constructor
    · intro h
      by_contra hne
      obtain ⟨v, vs, hV⟩ := List.exists_cons_of_ne_nil hne
      obtain ⟨r, hr, _⟩ := selAux_some y vs v
      rw [hbs_eq, hV, show selAux y none (v :: vs) = selAux y (some v) vs from rfl, hr] at h
      exact Option.noConfusion h
    · intro h
      rw [hbs_eq, h]
      rfl
  · intro b hb
    have hne : validCands X minLeaf ≠ [] := by
      intro hV
      rw [hbs_eq, hV] at hb
      exact Option.noConfusion hb
    obtain ⟨v, vs, hV⟩ := List.exists_cons_of_ne_nil hne
    obtain ⟨r, hr, hfm⟩ := selAux_some y vs v
    have hbr : b = r := by
      rw [hbs_eq, hV, show selAux y none (v :: vs) = selAux y (some v) vs from rfl, hr] at hb
      exact (Option.some_inj.mp hb).symm
    constructor
    · rw [hV, hbr]
      exact hfm
    · intro c hc
      rw [hV] at hc
      obtain ⟨pre, post, hdec, hpre, hpost⟩ := hfm
      rw [hdec] at hc
      rw [hbr]
      rcases List.mem_append.mp hc with hcp | hcr
      · exact le_of_lt (hpre c hcp)
      · rcases List.mem_cons.mp hcr with hcr2 | hcpost
        · rw [hcr2]
        · exact hpost c hcpost
  · intro c hc
    rw [allCands, List.mem_flatMap] at hc
    obtain ⟨fi, hfi, hc2⟩ := hc
    rw [List.mem_range] at hfi
    obtain ⟨th, hth, hceq⟩ := List.mem_map.mp hc2
    rw [midpoints] at hth
    obtain ⟨t, ht, htheq⟩ := List.mem_map.mp hth
    rw [List.mem_range] at ht
    exact ⟨fi, t, hfi, by omega, by rw [← hceq, ← htheq]⟩
  · intro depth maxD minSplit hV
    have hnone : bestSplit X y minLeaf = none := by rw [hbs_eq, hV]; rfl
    rw [buildTree_unfold]
    by_cases hc : stopCond y depth maxD minSplit minLeaf = true
    · rw [if_pos hc]
    · rw [if_neg hc, hnone]

/-- Witness for C5 at concrete inputs. -/
theorem bestSplit_first_min_witness :
    (bestSplit [[0], [1]] [0, 10] 1 = none ↔ validCands [[0], [1]] 1 = []) ∧
      (∀ b, bestSplit [[0], [1]] [0, 10] 1 = some b →
        IsFirstMin [0, 10] (validCands [[0], [1]] 1) b ∧
          ∀ c ∈ validCands [[0], [1]] 1, wMSE [0, 10] b ≤ wMSE [0, 10] c) ∧
      (∀ c ∈ allCands [[0], [1]], ∃ fi t,
        fi < (([[0], [1]] : List (List ℚ)).headD []).length ∧
        t + 1 < (sortedUniques [[0], [1]] fi).length ∧
        c = mkCand [[0], [1]] fi
          (((sortedUniques [[0], [1]] fi).getD t 0 +
            (sortedUniques [[0], [1]] fi).getD (t + 1) 0) / 2)) ∧
      (∀ depth maxD minSplit, validCands [[0], [1]] 1 = [] →
        buildTree [[0], [1]] [0, 10] depth maxD minSplit 1 = TreeNode.leaf (meanQ [0, 10])) :=
  bestSplit_first_min [[0], [1]] [0, 10] 1
